import Mathlib

/-!
Shallow embedding of the contour-tracing and signed-distance rasterization core
of the vector-race repository (src/interface.rs, src/interface/maths.rs,
src/game/map.rs), together with theorems settling the frozen claims.

Modelling conventions:
* `i32`/`u32` arithmetic is modelled by `ℤ`/`ℕ` (no overflow is exercised).
* Exact rational values are represented by `Q`, a canonical
  numerator/denominator pair over `ℤ` with its own arithmetic (Mathlib's `ℚ`
  operations are deliberately irreducible and so cannot be evaluated by the
  kernel).
* `f32` values are modelled by `F`: an exact rational together with a NaN
  marker.  All arithmetic the claims exercise is exact in f32 (half-integer
  coordinates, division by exact square roots), except `sqrt`, which is
  modelled by `ratSqrt`, a deterministic rational approximation that is exact
  on perfect squares (as IEEE-754 sqrt is) and correct to about 1e-6
  otherwise.  Infinities are not modelled: the only division in the embedded
  code has a zero numerator whenever its denominator is zero, which IEEE maps
  to NaN.
* The `std` `HashMap`/`HashSet` contents are modelled by duplicate-free
  association lists; the unspecified (randomly seeded) iteration order of
  `HashSet` in the tracer is modelled by an explicit selection function
  `pick : List Edge → Edge` standing for `border_cells.iter().next()`.
* `f32::sin` (used only for the cosmetic banding byte) is a parameter
  `fsin : Q → Q` of the pixel-colour function; no claim depends on its value.
* Rust loops are modelled by fuel-indexed recursion returning `Option`;
  `none` models both fuel exhaustion and the `unwrap` panic on a non-axis
  edge offset.
-/

namespace VectorRace

set_option maxRecDepth 40000

/-! ## Exact rational values -/

/-- Exact rational number as a numerator/denominator pair over `ℤ`.  All
operations keep the representation canonical (reduced, positive
denominator), so structural equality coincides with value equality. -/
structure Q where
  num : ℤ
  den : ℤ
deriving DecidableEq, Repr

/-- Canonicalising constructor: reduce by the gcd and make the denominator
positive (a zero denominator, which no operation produces, is mapped to
zero). -/
def Q.mk' (n d : ℤ) : Q :=
  if d = 0 then ⟨0, 1⟩
  else
    let g : ℤ := (Int.gcd n d : ℤ)
    if d < 0 then ⟨-(n / g), -(d / g)⟩ else ⟨n / g, d / g⟩

def Q.ofInt (n : ℤ) : Q := ⟨n, 1⟩

def Q.add (a b : Q) : Q := Q.mk' (a.num * b.den + b.num * a.den) (a.den * b.den)

def Q.sub (a b : Q) : Q := Q.mk' (a.num * b.den - b.num * a.den) (a.den * b.den)

def Q.mul (a b : Q) : Q := Q.mk' (a.num * b.num) (a.den * b.den)

def Q.div (a b : Q) : Q := Q.mk' (a.num * b.den) (a.den * b.num)

def Q.neg (a : Q) : Q := ⟨-a.num, a.den⟩

def Q.abs (a : Q) : Q := ⟨|a.num|, a.den⟩

/-- Boolean comparison `a ≤ b` (cross-multiplication; denominators are
positive for canonical values). -/
def Q.ble (a b : Q) : Bool := a.num * b.den ≤ b.num * a.den

/-- Boolean comparison `a < b`. -/
def Q.blt (a b : Q) : Bool := a.num * b.den < b.num * a.den

def Q.min (a b : Q) : Q := if Q.ble a b then a else b

/-- One step of the bitwise integer square root: accept the candidate bit
when the square still fits. -/
def isqrtStep (n acc p : ℕ) : ℕ := if (acc + p) * (acc + p) ≤ n then acc + p else acc

/-- Bitwise integer square root by structural recursion (64 bits, exact
floor square root for arguments below `2^128`); Lean's `Nat.sqrt` is
defined by well-founded recursion and does not reduce in the kernel. -/
def isqrtAux : ℕ → ℕ → ℕ → ℕ
  | 0, _, acc => acc
  | k + 1, n, acc => isqrtAux k n (isqrtStep n acc (2 ^ k))

def isqrt (n : ℕ) : ℕ := isqrtAux 64 n 0

/-! ## The f32 model -/

/-- Model of an `f32` value: an exact rational, or NaN. -/
inductive F where
  | val : Q → F
  | nan : F
deriving DecidableEq, Repr

/-- The value of `f32::MAX`, i.e. `(2 - 2⁻²³) · 2¹²⁷`. -/
def f32MAX : Q := ⟨2 ^ 128 - 2 ^ 104, 1⟩

/-- Deterministic rational approximation of `f32`'s square root on
nonnegative rationals: exact on perfect squares of rationals (IEEE-754 sqrt
is exact there too), within about `1e-6` otherwise. -/
def ratSqrt (q : Q) : Q :=
  Q.mk' (isqrt (q.num.toNat * q.den.toNat * 1000000000000)) (q.den * 1000000)

def F.add : F → F → F
  | val a, val b => val (a.add b)
  | _, _ => nan

def F.sub : F → F → F
  | val a, val b => val (a.sub b)
  | _, _ => nan

def F.mul : F → F → F
  | val a, val b => val (a.mul b)
  | _, _ => nan

/-- Division.  `0/0` is NaN.  (IEEE sends `x/0` with `x ≠ 0` to ±∞, which is
not modelled: the only division in the embedded code, in `sdf_segment`, has
numerator `0` whenever its denominator is `0`.) -/
def F.div : F → F → F
  | val a, val b => if b.num = 0 then nan else val (a.div b)
  | _, _ => nan

def F.sqrt : F → F
  | val q => if q.num < 0 then nan else val (ratSqrt q)
  | nan => nan

def F.abs : F → F
  | val q => val q.abs
  | nan => nan

def F.neg : F → F
  | val q => val q.neg
  | nan => nan

/-- Model of `f32::min`: returns the other operand when one is NaN. -/
def F.min : F → F → F
  | val a, val b => val (a.min b)
  | val a, nan => val a
  | nan, val b => val b
  | nan, nan => nan

/-- Model of `f32::signum`: `1` for positive (and `+0`), `-1` for negative,
NaN for NaN.  (`-0.0` is not modelled; `signum` is only consulted at nonzero
values in the embedded code.) -/
def F.signum : F → F
  | val q => if q.num < 0 then val ⟨-1, 1⟩ else val ⟨1, 1⟩
  | nan => nan

/-- Model of the `f32` comparison `<=`: false whenever an operand is NaN. -/
def F.le : F → F → Bool
  | val a, val b => a.ble b
  | _, _ => false

/-- Model of the `f32` comparison `<`: false whenever an operand is NaN. -/
def F.lt : F → F → Bool
  | val a, val b => a.blt b
  | _, _ => false

/-! ## maths.rs: positions and the signed distance field -/

/-- Model of `WorldPosition`: a continuous 2D coordinate (a pair of f32 values). -/
abbrev WP := F × F

/-- Model of `Cell`: integer cell coordinates. -/
abbrev Cell := ℤ × ℤ

def Cell.start_point (c : Cell) : Q × Q := (Q.ofInt c.1, Q.ofInt c.2)

def Cell.center_point (c : Cell) : Q × Q :=
  ((Q.ofInt c.1).add ⟨1, 2⟩, (Q.ofInt c.2).add ⟨1, 2⟩)

def Cell.end_point (c : Cell) : Q × Q :=
  ((Q.ofInt c.1).add ⟨1, 1⟩, (Q.ofInt c.2).add ⟨1, 1⟩)

/-- Injection of an exact rational point into the f32-valued plane. -/
def toWP (p : Q × Q) : WP := (F.val p.1, F.val p.2)

/-- Function `dist`: Euclidean distance between two points. -/
def dist (a b : WP) : F :=
  (((a.1.sub b.1).mul (a.1.sub b.1)).add ((a.2.sub b.2).mul (a.2.sub b.2))).sqrt

/-- Function `vec`: vector formed by two points. -/
def vec (a b : WP) : F × F := (b.1.sub a.1, b.2.sub a.2)

/-- Function `dot`: dot product of two vectors. -/
def dot (v w : F × F) : F := (v.1.mul w.1).add (v.2.mul w.2)

/-- Function `sdf_segment`: signed distance from `tested_point` to the segment from
`start` to `endp`, with endpoint capping and the `f32::MAX` sentinel when the
point is within `10e-6` of the carrying line while projecting outside the
segment. -/
def sdf_segment (tested_point start endp : WP) : F :=
  let a := endp.2.sub start.2
  let b := start.1.sub endp.1
  let c := (start.2.mul (endp.1.sub start.1)).sub (start.1.mul (endp.2.sub start.2))
  let d := (((a.mul tested_point.1).add (b.mul tested_point.2)).add c).div
    (((a.mul a).add (b.mul b)).sqrt)
  if (dot (vec start endp) (vec start tested_point)).le (F.val ⟨0, 1⟩)
      || (dot (vec endp start) (vec endp tested_point)).le (F.val ⟨0, 1⟩) then
    if d.abs.lt (F.val ⟨1, 100000⟩) then F.val f32MAX
    else ((dist tested_point start).min (dist tested_point endp)).mul d.signum
  else d

/-- The accumulation loop of `sdf_polygon` over consecutive point pairs. -/
def sdf_polygonAux (tested_point : WP) : WP → List WP → F → F
  | _, [], distAcc => distAcc
  | lastp, p :: rest, distAcc =>
    let d := (sdf_segment tested_point lastp p).neg
    sdf_polygonAux tested_point p rest (if d.abs.lt distAcc.abs then d else distAcc)

/-- Function `sdf_polygon`: minimum-magnitude negated segment distance over the
consecutive point pairs of the polygon, starting from `f32::MAX`.  The
source panics on a polygon with no points (`get(0).unwrap()`); that case is
never reached by the tracer and is mapped to NaN here. -/
def sdf_polygon (tested_point : WP) (polygon : List WP) : F :=
  match polygon with
  | [] => F.nan
  | p0 :: rest => sdf_polygonAux tested_point p0 rest (F.val f32MAX)

/-- Function `sdf_multiple_polygons`: minimum-magnitude `sdf_polygon` over a group of
polygons, starting from `f32::MAX`. -/
def sdf_multiple_polygons (tested_point : WP) (polygons : List (List WP)) : F :=
  polygons.foldl (fun distAcc polygon =>
    let d := sdf_polygon tested_point polygon
    if d.abs.lt distAcc.abs then d else distAcc) (F.val f32MAX)

/-! ## maths.rs: Side -/

/-- Model of `Side`: the four axis directions. -/
inductive Side where
  | Up
  | Right
  | Down
  | Left
deriving DecidableEq, Repr, Fintype

def Side.dir : Side → ℤ × ℤ
  | .Up => (0, -1)
  | .Right => (1, 0)
  | .Down => (0, 1)
  | .Left => (-1, 0)

/-- Model of `Side::from_dir`; the source returns `Result<Self, ()>`,
modelled as `Option`. -/
def Side.from_dir : ℤ × ℤ → Option Side
  | (0, -1) => some .Up
  | (1, 0) => some .Right
  | (0, 1) => some .Down
  | (-1, 0) => some .Left
  | _ => none

def Side.turn_right : Side → Side
  | .Up => .Right
  | .Right => .Down
  | .Down => .Left
  | .Left => .Up

def Side.turn_left : Side → Side
  | .Right => .Up
  | .Down => .Right
  | .Left => .Down
  | .Up => .Left

/-- Model of `Side::iter`: Up, Right, Down, Left, in that order. -/
def Side.iterList : List Side := [.Up, .Right, .Down, .Left]

/-- Model of `Side::iter_dir`. -/
def Side.iter_dir : List (ℤ × ℤ) := Side.iterList.map Side.dir

/-! ## map.rs: tiles and the game map -/

/-- Model of `Tile`: the tile types. -/
inductive Tile where
  | Empty
  | Road
  | Wall
  | Gravel
  | Dirt
  | Ice
deriving DecidableEq, Repr

/-- An sdl2 RGBA colour. -/
structure Color where
  r : ℕ
  g : ℕ
  b : ℕ
  a : ℕ
deriving DecidableEq, Repr

/-- Model of `Tile::tile_color` (sdl2 named colours: WHITE, GREY, BLACK,
RED, BLUE). -/
def Tile.tile_color : Tile → Color
  | .Empty => ⟨255, 255, 255, 255⟩
  | .Road => ⟨128, 128, 128, 255⟩
  | .Wall => ⟨0, 0, 0, 255⟩
  | .Gravel => ⟨100, 100, 100, 255⟩
  | .Dirt => ⟨255, 0, 0, 255⟩
  | .Ice => ⟨0, 0, 255, 255⟩

/-- Association-list lookup, modelling `HashMap::get`. -/
def lookupA : List (Cell × Tile) → Cell → Option Tile
  | [], _ => none
  | (c', t') :: rest, c => if c' = c then some t' else lookupA rest c

/-- Association-list insert, modelling `HashMap::insert` (returns the old
value alongside the new store). -/
def insertA : List (Cell × Tile) → Cell → Tile → Option Tile × List (Cell × Tile)
  | [], c, t => (none, [(c, t)])
  | (c', t') :: rest, c, t =>
    if c' = c then (some t', (c, t) :: rest)
    else
      let r := insertA rest c t
      (r.1, (c', t') :: r.2)

/-- Model of `GameMap`: sparse terrain store plus the default tile. -/
structure GameMap where
  terrain : List (Cell × Tile)
  default_tile : Tile

/-- Model of `GameMap::empty`. -/
def GameMap.empty : GameMap := ⟨[], .Empty⟩

/-- Model of `GameMap::get_tile`: stored value, or the default tile. -/
def GameMap.get_tile (m : GameMap) (c : Cell) : Tile :=
  match lookupA m.terrain c with
  | some x => x
  | none => m.default_tile

/-- Model of `GameMap::set_tile`: inserts and reports whether the tile "has been
changed" — true when the key was absent or the stored value differed. -/
def GameMap.set_tile (m : GameMap) (c : Cell) (t : Tile) : Bool × GameMap :=
  let r := insertA m.terrain c t
  (match r.1 with
   | none => true
   | some x => x ≠ t,
   { m with terrain := r.2 })

/-! ## interface.rs: View::pre_render — bounding box, contour tracing,
rasterization -/

/-- Constant `PRE_RENDERING_CELL_SIZE`. -/
def PRE_RENDERING_CELL_SIZE : ℤ := 128

/-- One step of the bounding-box fold of `pre_render`: widen the running
range by one stored tile, in the source's comparison order. -/
def cellRangeStep (r : (ℤ × ℤ) × (ℤ × ℤ)) (e : Cell × Tile) : (ℤ × ℤ) × (ℤ × ℤ) :=
  let x := e.1.1
  let y := e.1.2
  let r := if x < r.1.1 then ((x, r.1.2), r.2) else r
  let r := if x > r.2.1 then (r.1, (x, r.2.2)) else r
  let r := if y < r.1.2 then ((r.1.1, y), r.2) else r
  let r := if y > r.2.2 then (r.1, (r.2.1, y)) else r
  r

/-- The bounding-box fold of `pre_render` (initialised at `((0,0),(0,0))`,
then widened over every stored tile). -/
def cellRange (entries : List (Cell × Tile)) : (ℤ × ℤ) × (ℤ × ℤ) :=
  entries.foldl cellRangeStep ((0, 0), (0, 0))

/-- Size `texture_size`: `(maxx - minx + 1) * 128` by `(maxy - miny + 1) * 128`. -/
def textureSize (m : GameMap) : ℤ × ℤ :=
  let cr := cellRange m.terrain
  ((cr.2.1 - cr.1.1 + 1) * PRE_RENDERING_CELL_SIZE,
   (cr.2.2 - cr.1.2 + 1) * PRE_RENDERING_CELL_SIZE)

/-- A boundary edge: the `(insideCell, outsideCell)` pair. -/
abbrev Edge := Cell × Cell

/-- Helper `move_cell` of `pre_render`. -/
def move_cell (c : Cell) (s : Side) : Cell := (c.1 + s.dir.1, c.2 + s.dir.2)

/-- HashSet-style insertion into a duplicate-free list. -/
def insertEdge (acc : List Edge) (e : Edge) : List Edge :=
  if e ∈ acc then acc else acc ++ [e]

/-- The boundary edges contributed by one populated cell: its four
surrounding cells in Up, Right, Down, Left order, keeping those whose tile
differs from the cell's. -/
def borderEdgesOfCell (m : GameMap) (c : Cell) : List Edge :=
  (Side.iter_dir.map (fun p => (m.get_tile (c.1 + p.1, c.2 + p.2), (c.1 + p.1, c.2 + p.2)))).filterMap
    (fun tp => if tp.1 ≠ m.get_tile c then some (c, tp.2) else none)

/-- The `border_cells` set of `pre_render`: every `(cell, neighbour)` pair
with differing tiles, discovered from each stored non-Empty cell.  The set is
modelled as a duplicate-free list (one possible iteration order). -/
def borderEdges (m : GameMap) : List Edge :=
  m.terrain.foldl (fun acc e =>
    if m.get_tile e.1 = Tile.Empty then acc
    else (borderEdgesOfCell m e.1).foldl insertEdge acc) []

/-- Removal from the working set (`HashSet::remove`); the list is
duplicate-free so removing the first occurrence removes the occurrence. -/
def eraseA : List Edge → Edge → List Edge
  | [], _ => []
  | x :: rest, e => if x = e then rest else x :: eraseA rest e

/-- One step of the wall-following walk: the three-way branch of the inner
loop of `pre_render` (turn right and move / move forward / turn left). -/
def walkStep (m : GameMap) (tile : Tile) (cell : Cell) (dir : Side) : Cell × Side :=
  if m.get_tile (move_cell cell dir.turn_right) = tile then
    (move_cell cell dir.turn_right, dir.turn_right)
  else if m.get_tile (move_cell cell dir) = tile then
    (move_cell cell dir, dir)
  else (cell, dir.turn_left)

/-- The `(insideCell, outsideCell)` pair determined by the walk state: the
faced cell is the neighbour on the right-hand side of the walking
direction. -/
def edgeOf (cell : Cell) (dir : Side) : Edge := (cell, move_cell cell dir.turn_right)

/-- The inner `loop` of `pre_render`: remove the current edge from the
working set, step, recompute the faced cell, append the pair to the border
when it is a genuine boundary, and stop on returning to the starting pair.
Fuel-indexed; `none` is fuel exhaustion. -/
def walkLoopAux (m : GameMap) (tile : Tile) (first : Edge) :
    ℕ → Cell × Side → List Edge → List Edge → Option (List Edge × List Edge)
  | 0, _, _, _ => none
  | fuel + 1, st, ws, border =>
    let ws' := eraseA ws (edgeOf st.1 st.2)
    let st' := walkStep m tile st.1 st.2
    let e := edgeOf st'.1 st'.2
    let border' := if m.get_tile e.2 ≠ tile then border ++ [e] else border
    if e = first then some (border', ws')
    else walkLoopAux m tile first fuel st' ws' border'

/-- Midpoint between the centres of the two cells of a boundary edge (the
world position emitted for the edge). -/
def edgeMidpoint (e : Edge) : Q × Q :=
  let inside := Cell.center_point e.1
  let outside := Cell.center_point e.2
  ((inside.1.add outside.1).div ⟨2, 1⟩, (inside.2.add outside.2).div ⟨2, 1⟩)

/-- The per-type loop collection (`borders_list`), modelled as an
association list in insertion order. -/
abbrev BordersList := List (Tile × List (List (Q × Q)))

/-- Update of `borders_list`: push onto an existing entry for the tile, or
insert a fresh singleton entry. -/
def insertLoop (bl : BordersList) (t : Tile) (loop : List (Q × Q)) : BordersList :=
  match bl with
  | [] => [(t, [loop])]
  | (t', loops) :: rest =>
    if t' = t then (t', loops ++ [loop]) :: rest
    else (t', loops) :: insertLoop rest t loop

/-- One iteration of the outer `while !border_cells.is_empty()` loop of
`pre_render`, starting from the picked edge `first`: derive the initial
direction (`unwrap` of `Side::from_dir`, modelled by `none`, is unreachable
for discovered edges), walk the loop, and record it under the inside cell's
tile.  Returns the remaining working set and the updated loop collection. -/
def traceAuxOnce (m : GameMap) (first : Edge) (fuel : ℕ) (ws : List Edge)
    (bl : BordersList) : Option (List Edge × BordersList) :=
  let tile := m.get_tile first.1
  match Side.from_dir (first.2.1 - first.1.1, first.2.2 - first.1.2) with
  | none => none
  | some s =>
    match walkLoopAux m tile first fuel (first.1, s.turn_left) ws [first] with
    | none => none
    | some r => some (r.2, insertLoop bl tile (r.1.map edgeMidpoint))

/-- The outer `while !border_cells.is_empty()` loop of `pre_render`.
`pick` models `border_cells.iter().next().unwrap()` (the unspecified HashSet
iteration order). -/
def traceAux (m : GameMap) (pick : List Edge → Edge) :
    ℕ → List Edge → BordersList → Option BordersList
  | 0, ws, bl => if ws = [] then some bl else none
  | fuel + 1, ws, bl =>
    if ws = [] then some bl
    else
      match traceAuxOnce m (pick ws) fuel ws bl with
      | none => none
      | some wb => traceAux m pick fuel wb.1 wb.2

/-- The contour-tracing part of `pre_render`: from the discovered boundary
edges to the per-type loop sets. -/
def trace (m : GameMap) (pick : List Edge → Edge) (fuel : ℕ) : Option BordersList :=
  traceAux m pick fuel (borderEdges m) []

/-- Validity of a selection function: it picks a member of every nonempty
working set (as `iter().next().unwrap()` does). -/
def ValidPick (pick : List Edge → Edge) : Prop :=
  ∀ ws : List Edge, ws ≠ [] → pick ws ∈ ws

/-- A canonical selection function: the head of the working-set list. -/
def headPick : List Edge → Edge := fun ws => ws.headD ((0, 0), (0, 0))

/-! ## interface.rs: the per-pixel rasterization loop -/

/-- The world position of pixel `(x, y)`: the bounding box's top-left corner
plus `x/128`, `y/128` (exact in f32). -/
def pixelWorldPos (m : GameMap) (x y : ℕ) : WP :=
  let cr := cellRange m.terrain
  let s := Cell.start_point cr.1
  (F.val (s.1.add ((Q.ofInt x).div ⟨128, 1⟩)), F.val (s.2.add ((Q.ofInt y).div ⟨128, 1⟩)))

/-- The `for (tile, borders) in &borders_list` scan with `continue 'l`: the
first entry (in iteration order) whose multi-polygon distance at the pixel
is `≤ 0`, together with that distance; `none` means the background is
written. -/
def chosenEntry (bl : BordersList) (world_pos : WP) : Option (Tile × F) :=
  match bl with
  | [] => none
  | (tile, borders) :: rest =>
    let d := sdf_multiple_polygons world_pos (borders.map (List.map toWP))
    if d.le (F.val ⟨0, 1⟩) then some (tile, d) else chosenEntry rest world_pos

/-- Round half away from zero (`f32::round`); denominators of canonical
values are positive, so integer floor division computes the floor. -/
def ratRound (q : Q) : ℤ :=
  if q.num < 0 then -((2 * (-q.num) + q.den) / (2 * q.den))
  else (2 * q.num + q.den) / (2 * q.den)

/-- Saturating `as u8` cast of a rounded value (Rust float→int casts
saturate; NaN casts to 0). -/
def castU8 (z : ℤ) : ℕ :=
  if z < 0 then 0 else if z > 255 then 255 else z.toNat

/-- The banding byte `(((-dist * 10.).sin() * 64.).round()) as u8`, with
`f32::sin` supplied as the parameter `fsin`. -/
def bandByte (fsin : Q → Q) (d : F) : ℕ :=
  match d with
  | F.val q => castU8 (ratRound ((fsin (q.neg.mul ⟨10, 1⟩)).mul ⟨64, 1⟩))
  | F.nan => 0

/-- The four bytes written for one pixel, in buffer order B, G, R, A.
The green channel adds the banding byte (u8 wrap-around modelled by
`% 256`); the background is white `(255,255,255,255)`. -/
def pixelBytes (fsin : Q → Q) (bl : BordersList) (world_pos : WP) : ℕ × ℕ × ℕ × ℕ :=
  match chosenEntry bl world_pos with
  | some td =>
    let color := td.1.tile_color
    (color.b, (color.g + bandByte fsin td.2) % 256, color.r, 255)
  | none => (255, 255, 255, 255)

/-! ## Concrete grids and formalized claim statements -/

/-- Grid with a single populated cell `(0,0) = Dirt` (claims C3, C4, C9). -/
def singleCellGrid : GameMap := ⟨[((0, 0), Tile.Dirt)], Tile.Empty⟩

/-- Grid with a single populated cell `(5,5) = Dirt` (claim C5). -/
def farCellGrid : GameMap := ⟨[((5, 5), Tile.Dirt)], Tile.Empty⟩

/-- Grid forming a 3×3 block of Dirt whose centre cell is Empty (claim C6). -/
def holeGrid : GameMap :=
  ⟨[((0, 0), Tile.Dirt), ((1, 0), Tile.Dirt), ((2, 0), Tile.Dirt),
    ((0, 1), Tile.Dirt), ((1, 1), Tile.Empty), ((2, 1), Tile.Dirt),
    ((0, 2), Tile.Dirt), ((1, 2), Tile.Dirt), ((2, 2), Tile.Dirt)], Tile.Empty⟩

/-- Grid with a 2×1 Dirt block and a 1×3 Ice block meeting at the world
point `(2, 1/2)` (claim C1); the Ice cells are listed first, so the Ice
loop is traced first and heads the loop collection. -/
def twoTypeGrid : GameMap :=
  ⟨[((2, -1), Tile.Ice), ((2, 0), Tile.Ice), ((2, 1), Tile.Ice),
    ((0, 0), Tile.Dirt), ((1, 0), Tile.Dirt)], Tile.Empty⟩

/-- A selection function preferring the left boundary edge of the cell
`(0,0)`; used to exhibit a second HashSet iteration order (claim C4). -/
def leftPick : List Edge → Edge := fun ws =>
  if ((0, 0), (-1, 0)) ∈ ws then ((0, 0), (-1, 0)) else ws.headD ((0, 0), (0, 0))

/-- A second head-selection function, agreeing with `headPick` on every
nonempty list (claim C4's amended statement witness). -/
def altHeadPick : List Edge → Edge := fun ws => ws.headD ((9, 9), (9, 9))

/-- Left rotation of a list by `i` places. -/
def rotateL {α : Type} (l : List α) (i : ℕ) : List α := l.drop i ++ l.take i

/-- Closing a loop: append the first point again at the end. -/
def closeLoop (l : List (Q × Q)) : List (Q × Q) := l ++ [l.headD (⟨0, 1⟩, ⟨0, 1⟩)]

/-- The cyclic order in which the tracer emits the four edge midpoints of
the single cell `(0,0)`: top, left, bottom, right. -/
def c3cycle : List (Q × Q) :=
  [(⟨1, 2⟩, ⟨0, 1⟩), (⟨0, 1⟩, ⟨1, 2⟩), (⟨1, 2⟩, ⟨1, 1⟩), (⟨1, 1⟩, ⟨1, 2⟩)]

/-- The four possible outputs of tracing `singleCellGrid` (one per choice of
start edge): a single closed 5-point Dirt loop. -/
def c3results : List BordersList :=
  (List.range 4).map (fun i => [(Tile.Dirt, [closeLoop (rotateL c3cycle i)])])

/-- Decidable check for claim C3 as stated: a loop set holding exactly one
Dirt loop of exactly 4 points that is a rotation of the listed clockwise
midpoint sequence `(1/2,0), (1,1/2), (1/2,1), (0,1/2)`. -/
def c3claimCheck : BordersList → Bool
  | [(Tile.Dirt, [l])] =>
    l.length = 4 &&
      (List.range 4).any (fun i => l = rotateL
        [((⟨1, 2⟩ : Q), (⟨0, 1⟩ : Q)), (⟨1, 1⟩, ⟨1, 2⟩), (⟨1, 2⟩, ⟨1, 1⟩), (⟨0, 1⟩, ⟨1, 2⟩)] i)
  | _ => false

/-- Claim C3 as stated: tracing the single-cell grid produces one Dirt loop
of exactly 4 points, the cell's four edge midpoints in some clockwise
rotation. -/
def claimC3Statement : Prop :=
  ∀ pick, ValidPick pick → ∀ bl, trace singleCellGrid pick 30 = some bl →
    c3claimCheck bl = true

/-- Membership in the four possible single-cell trace outputs. -/
def c3AmendedCheck : BordersList → Bool := fun bl => decide (bl ∈ c3results)

/-- Claim C4 as stated: tracing is deterministic — any two runs (any two
HashSet iteration orders) on the same unchanged grid give identical loop
point sequences. -/
def claimC4Statement : Prop :=
  ∀ (m : GameMap) (pick₁ pick₂ : List Edge → Edge) (fuel : ℕ),
    ValidPick pick₁ → ValidPick pick₂ →
    trace m pick₁ fuel = trace m pick₂ fuel

/-- Claim C2 as stated: at point `(2,0)` with segment `(-1,0)`–`(1,0)` the
segment distance has magnitude `1.0` (the distance to the nearer
endpoint `(1,0)`). -/
def claimC2Statement : Prop :=
  (sdf_segment (toWP (⟨2, 1⟩, ⟨0, 1⟩)) (toWP (⟨-1, 1⟩, ⟨0, 1⟩)) (toWP (⟨1, 1⟩, ⟨0, 1⟩))).abs =
    F.val ⟨1, 1⟩

/-- Claim C7 as stated: with coincident endpoints the segment distance is
the sentinel `f32::MAX` (rather than a panic or NaN). -/
def claimC7Statement : Prop :=
  ∀ p a : WP, sdf_segment p a a = F.val f32MAX

/-- The spec's buffer size: the bounding box of the populated cells only
(no origin cell included), at 128 pixels per cell. -/
def specTextureSize (m : GameMap) : ℤ × ℤ :=
  match m.terrain with
  | [] => (0, 0)
  | e :: rest =>
    let xs := rest.map (fun p => p.1.1)
    let ys := rest.map (fun p => p.1.2)
    ((xs.foldl max e.1.1 - xs.foldl min e.1.1 + 1) * 128,
     (ys.foldl max e.1.2 - ys.foldl min e.1.2 + 1) * 128)

/-- Claim C5 as stated: for every grid with at least one populated cell the
buffer covers exactly the bounding box of the populated cells. -/
def claimC5Statement : Prop :=
  ∀ m : GameMap, m.terrain ≠ [] → textureSize m = specTextureSize m

/-- The multi-polygon distance of one loop-collection entry at a point. -/
def entryDist (p : WP) (e : Tile × List (List (Q × Q))) : F :=
  sdf_multiple_polygons p (e.2.map (List.map toWP))

/-- Claim C1 as stated: whenever the per-pixel scan colours a pixel with a
tile, that tile's distance is `≤ 0` and has the smallest magnitude among all
tile types present; and a background pixel means no present tile has
distance `≤ 0`. -/
def claimC1Statement : Prop :=
  ∀ (bl : BordersList) (p : WP),
    (∀ t d, chosenEntry bl p = some (t, d) →
      d.le (F.val ⟨0, 1⟩) = true ∧ ∀ e ∈ bl, (d.abs.le (entryDist p e).abs) = true) ∧
    (chosenEntry bl p = none → ∀ e ∈ bl, (entryDist p e).le (F.val ⟨0, 1⟩) = false)

/-- The loop collection obtained by tracing `twoTypeGrid` with `headPick`:
the 8-edge Ice loop followed by the 6-edge Dirt loop (claim C1). -/
def twoTypeBL : BordersList :=
  [(Tile.Ice, [[(⟨5, 2⟩, ⟨-1, 1⟩), (⟨2, 1⟩, ⟨-1, 2⟩), (⟨2, 1⟩, ⟨1, 2⟩), (⟨2, 1⟩, ⟨3, 2⟩),
    (⟨5, 2⟩, ⟨2, 1⟩), (⟨3, 1⟩, ⟨3, 2⟩), (⟨3, 1⟩, ⟨1, 2⟩), (⟨3, 1⟩, ⟨-1, 2⟩), (⟨5, 2⟩, ⟨-1, 1⟩)]]),
   (Tile.Dirt, [[(⟨1, 2⟩, ⟨0, 1⟩), (⟨0, 1⟩, ⟨1, 2⟩), (⟨1, 2⟩, ⟨1, 1⟩), (⟨3, 2⟩, ⟨1, 1⟩),
    (⟨2, 1⟩, ⟨1, 2⟩), (⟨3, 2⟩, ⟨0, 1⟩), (⟨1, 2⟩, ⟨0, 1⟩)]])]

/-- The world position of pixel `(256, 192)` of `twoTypeGrid`'s buffer: the
point `(2, 1/2)`, the right corner of the Dirt region on the Ice
boundary. -/
def twoTypePixel : WP := toWP (⟨2, 1⟩, ⟨1, 2⟩)

/-- Signed shoelace sum over consecutive point pairs; for a closed loop its
sign is the winding direction. -/
def shoelace : List (Q × Q) → Q
  | p :: q :: rest => ((p.1.mul q.2).sub (q.1.mul p.2)).add (shoelace (q :: rest))
  | _ => ⟨0, 1⟩

/-- The world position of the centre cell of `holeGrid` (claim C6). -/
def holeCenter : WP := toWP (⟨3, 2⟩, ⟨3, 2⟩)

/-- Decidable check for claim C6: the traced loop set holds exactly two
closed Dirt loops — a 12-edge one and a 4-edge one, wound oppositely — and
the multi-polygon Dirt distance at the centre cell's world position is
strictly positive. -/
def c6check : BordersList → Bool
  | [(Tile.Dirt, [l1, l2])] =>
    ((l1.length = 13 && l2.length = 5) || (l1.length = 5 && l2.length = 13))
    && (l1.head? = l1.getLast?) && (l2.head? = l2.getLast?)
    && ((shoelace l1).mul (shoelace l2)).blt ⟨0, 1⟩
    && (F.val ⟨0, 1⟩).lt (sdf_multiple_polygons holeCenter [l1.map toWP, l2.map toWP])
  | _ => false

/-- Exhaustive check that every choice of start edge leads, after one outer
iteration of the tracer, to an empty working set and a final loop collection
accepted by `final`. -/
def traceOneCheck (m : GameMap) (f1 : ℕ) (ws0 : List Edge)
    (final : BordersList → Bool) : Bool :=
  ws0.all (fun e1 =>
    match traceAuxOnce m e1 f1 ws0 [] with
    | none => false
    | some wb => wb.1.isEmpty && final wb.2)

/-- Exhaustive check that every choice of first start edge, followed by
every choice of second start edge, leads after two outer iterations of the
tracer to an empty working set and a final loop collection accepted by
`final`. -/
def traceTwoCheck (m : GameMap) (f1 f2 : ℕ) (ws0 : List Edge)
    (final : BordersList → Bool) : Bool :=
  ws0.all (fun e1 =>
    match traceAuxOnce m e1 f1 ws0 [] with
    | none => false
    | some wb =>
      !wb.1.isEmpty && wb.1.all (fun e2 =>
        match traceAuxOnce m e2 f2 wb.1 wb.2 with
        | none => false
        | some wb2 => wb2.1.isEmpty && final wb2.2))

/-! ## Walk-state functions for the termination analysis (claim C9) -/

/-- The walk step as a function on `(insideCell, direction)` states. -/
def fStep (m : GameMap) (tile : Tile) (s : Cell × Side) : Cell × Side :=
  walkStep m tile s.1 s.2

/-- A wall-hugging state: the inside cell carries the traced tile and the
cell on the right-hand side of the walking direction does not. -/
def WallHug (m : GameMap) (tile : Tile) (s : Cell × Side) : Prop :=
  m.get_tile s.1 = tile ∧ m.get_tile (move_cell s.1 s.2.turn_right) ≠ tile

/-- The walk step compressed to wall-hugging states: one raw step, or two
when the intermediate state has lost its right-hand wall. -/
def gStep (m : GameMap) (tile : Tile) (s : Cell × Side) : Cell × Side :=
  if m.get_tile (move_cell (fStep m tile s).1 (fStep m tile s).2.turn_right) ≠ tile then
    fStep m tile s
  else fStep m tile (fStep m tile s)

/-- The inverse of `gStep` on wall-hugging states, reconstructed from the
tiles around the target state. -/
def backStep (m : GameMap) (tile : Tile) (t : Cell × Side) : Cell × Side :=
  if m.get_tile (move_cell t.1 t.2.turn_right.turn_right) ≠ tile then
    (t.1, t.2.turn_right)
  else if m.get_tile (move_cell (move_cell t.1 t.2.turn_right.turn_right) t.2.turn_right) ≠ tile
  then (move_cell t.1 t.2.turn_right.turn_right, t.2)
  else (move_cell (move_cell t.1 t.2.turn_right.turn_right) t.2.turn_right, t.2.turn_left)

/-- A well-formed working-set edge: an axis-adjacent pair whose two cells
carry different tiles (all discovered boundary edges are of this shape). -/
def EdgeOk (m : GameMap) (e : Edge) : Prop :=
  m.get_tile e.2 ≠ m.get_tile e.1 ∧ ∃ s : Side, e.2 = move_cell e.1 s

/-! ## Helper lemmas -/

theorem traceAux_nil (m : GameMap) (pick : List Edge → Edge) (n : ℕ) (bl : BordersList) :
    traceAux m pick n [] bl = some bl := by
  cases n <;> rfl

theorem headPick_valid : ValidPick headPick := by
  intro ws h
  cases ws with
  | nil => exact absurd rfl h
  | cons a l => exact List.mem_cons_self a l

theorem leftPick_valid : ValidPick leftPick := by
  intro ws h
  unfold leftPick
  split
  · assumption
  · cases ws with
    | nil => exact absurd rfl h
    | cons a l => exact List.mem_cons_self a l

theorem altHeadPick_agrees (ws : List Edge) (h : ws ≠ []) : headPick ws = altHeadPick ws := by
  cases ws with
  | nil => exact absurd rfl h
  | cons a l => rfl

theorem insertA_fst (l : List (Cell × Tile)) (c : Cell) (t : Tile) :
    (insertA l c t).1 = lookupA l c := by
  induction l with
  | nil => rfl
  | cons e rest ih =>
    rcases e with ⟨c', t'⟩
    by_cases h : c' = c
    · simp [insertA, lookupA, h]
    · simp [insertA, lookupA, h, ih]

theorem insertA_lookup_self (l : List (Cell × Tile)) (c : Cell) (t : Tile) :
    lookupA (insertA l c t).2 c = some t := by
  induction l with
  | nil => simp [insertA, lookupA]
  | cons e rest ih =>
    rcases e with ⟨c', t'⟩
    by_cases h : c' = c
    · simp [insertA, lookupA, h]
    · simp [insertA, lookupA, h, ih]

theorem traceAux_pick_congr (m : GameMap) (p₁ p₂ : List Edge → Edge)
    (h : ∀ ws, ws ≠ [] → p₁ ws = p₂ ws) :
    ∀ (n : ℕ) (ws : List Edge) (bl : BordersList),
      traceAux m p₁ n ws bl = traceAux m p₂ n ws bl := by
  intro n
  induction n with
  | zero => intro ws bl; rfl
  | succ k ih =>
    intro ws bl
    by_cases hws : ws = []
    · subst hws; rfl
    · simp only [traceAux, if_neg hws, h ws hws]
      rcases htr : traceAuxOnce m (p₂ ws) k ws bl with _ | wb
      · rfl
      · exact ih wb.1 wb.2

theorem isEmpty_true_nil {l : List Edge} (h : l.isEmpty = true) : l = [] := by
  cases l with
  | nil => rfl
  | cons a t => exact absurd h (by simp)

theorem not_isEmpty_ne_nil {l : List Edge} (h : (!l.isEmpty) = true) : l ≠ [] := by
  intro hnil
  rw [hnil] at h
  exact absurd h (by simp)

theorem traceOne_sound (m : GameMap) (pick : List Edge → Edge) (hpick : ValidPick pick)
    (f1 : ℕ) (final : BordersList → Bool) (hne : borderEdges m ≠ [])
    (h : traceOneCheck m f1 (borderEdges m) final = true) :
    ∃ bl, trace m pick (f1 + 1) = some bl ∧ final bl = true := by
  have hmem : pick (borderEdges m) ∈ borderEdges m := hpick _ hne
  have hfact := List.all_eq_true.mp h _ hmem
  simp only at hfact
  rcases htr : traceAuxOnce m (pick (borderEdges m)) f1 (borderEdges m) [] with _ | wb
  · rw [htr] at hfact; exact absurd hfact (by simp)
  · rw [htr] at hfact
    rw [Bool.and_eq_true] at hfact
    refine ⟨wb.2, ?_, hfact.2⟩
    show traceAux m pick (f1 + 1) (borderEdges m) [] = some wb.2
    rw [traceAux, if_neg hne, htr]
    show traceAux m pick f1 wb.1 wb.2 = some wb.2
    rw [isEmpty_true_nil hfact.1, traceAux_nil]

theorem traceTwo_sound (m : GameMap) (pick : List Edge → Edge) (hpick : ValidPick pick)
    (f2 : ℕ) (final : BordersList → Bool) (hne : borderEdges m ≠ [])
    (h : traceTwoCheck m (f2 + 1) f2 (borderEdges m) final = true) :
    ∃ bl, trace m pick (f2 + 2) = some bl ∧ final bl = true := by
  have hmem : pick (borderEdges m) ∈ borderEdges m := hpick _ hne
  have hfact := List.all_eq_true.mp h _ hmem
  simp only at hfact
  rcases htr : traceAuxOnce m (pick (borderEdges m)) (f2 + 1) (borderEdges m) [] with _ | wb
  · rw [htr] at hfact; exact absurd hfact (by simp)
  rw [htr, Bool.and_eq_true] at hfact
  obtain ⟨hne1, hall⟩ := hfact
  have hwsne : wb.1 ≠ [] := not_isEmpty_ne_nil hne1
  have hmem2 : pick wb.1 ∈ wb.1 := hpick _ hwsne
  have hfact2 := List.all_eq_true.mp hall _ hmem2
  simp only at hfact2
  rcases htr2 : traceAuxOnce m (pick wb.1) f2 wb.1 wb.2 with _ | wb2
  · rw [htr2] at hfact2; exact absurd hfact2 (by simp)
  rw [htr2, Bool.and_eq_true] at hfact2
  obtain ⟨hemp2, hfin⟩ := hfact2
  refine ⟨wb2.2, ?_, hfin⟩
  show traceAux m pick (f2 + 1 + 1) (borderEdges m) [] = some wb2.2
  rw [traceAux, if_neg hne, htr]
  show traceAux m pick (f2 + 1) wb.1 wb.2 = some wb2.2
  rw [traceAux, if_neg hwsne, htr2]
  show traceAux m pick f2 wb2.1 wb2.2 = some wb2.2
  rw [isEmpty_true_nil hemp2, traceAux_nil]

theorem F.mul_nan (x : F) : F.mul x F.nan = F.nan := by cases x <;> rfl

theorem F.nan_mul (x : F) : F.mul F.nan x = F.nan := by cases x <;> rfl

theorem F.add_nan (x : F) : F.add x F.nan = F.nan := by cases x <;> rfl

theorem F.nan_add (x : F) : F.add F.nan x = F.nan := by cases x <;> rfl

theorem F.sub_nan (x : F) : F.sub x F.nan = F.nan := by cases x <;> rfl

theorem F.nan_sub (x : F) : F.sub F.nan x = F.nan := by cases x <;> rfl

theorem F.div_nan (x : F) : F.div x F.nan = F.nan := by cases x <;> rfl

theorem F.nan_div (x : F) : F.div F.nan x = F.nan := by cases x <;> rfl

theorem F.le_nan (x : F) : F.le x F.nan = false := by cases x <;> rfl

theorem F.nan_le (x : F) : F.le F.nan x = false := by cases x <;> rfl

theorem F.lt_nan (x : F) : F.lt x F.nan = false := by cases x <;> rfl

theorem F.nan_lt (x : F) : F.lt F.nan x = false := by cases x <;> rfl

theorem Q.mk'_zero (d : ℤ) : Q.mk' 0 d = ⟨0, 1⟩ := by
  unfold Q.mk'
  by_cases h : d = 0
  · simp [h]
  · have hg : (Int.gcd 0 d : ℤ) = (d.natAbs : ℤ) := by
      simp [Int.gcd]
    rw [if_neg h]
    by_cases hd : d < 0
    · rw [if_pos hd, hg]
      have habs : (d.natAbs : ℤ) = -d := Int.ofNat_natAbs_of_nonpos (le_of_lt hd)
      rw [habs, Int.zero_ediv, Int.ediv_neg, Int.ediv_self h]
      rfl
    · rw [if_neg hd, hg]
      have habs : (d.natAbs : ℤ) = d := Int.natAbs_of_nonneg (le_of_not_lt hd)
      rw [habs, Int.zero_ediv, Int.ediv_self h]

theorem Q.sub_self_zero (a : Q) : a.sub a = ⟨0, 1⟩ := by
  unfold Q.sub
  rw [sub_self, Q.mk'_zero]

theorem Q.zero_mul_zero (x : Q) : Q.mul ⟨0, 1⟩ x = ⟨0, 1⟩ := by
  unfold Q.mul
  show Q.mk' (0 * x.num) (1 * x.den) = _
  rw [zero_mul, one_mul, Q.mk'_zero]

theorem Q.mul_zero_zero (x : Q) : Q.mul x ⟨0, 1⟩ = ⟨0, 1⟩ := by
  unfold Q.mul
  show Q.mk' (x.num * 0) (x.den * 1) = _
  rw [mul_zero, mul_one, Q.mk'_zero]

theorem Q.zero_add_zero : Q.add ⟨0, 1⟩ ⟨0, 1⟩ = ⟨0, 1⟩ := by decide

theorem Q.zero_sub_zero : Q.sub ⟨0, 1⟩ ⟨0, 1⟩ = ⟨0, 1⟩ := by decide

theorem ratSqrt_zero : ratSqrt ⟨0, 1⟩ = ⟨0, 1⟩ := by decide

/-- Degenerate segments: with coincident endpoints `sdf_segment` evaluates
to NaN (`0/0` in the line-distance computation, propagated through
`signum`), for every tested point and every endpoint value. -/
theorem sdf_segment_self (p a : WP) : sdf_segment p a a = F.nan := by
  rcases p with ⟨p1, p2⟩
  rcases a with ⟨a1, a2⟩
  cases a1 <;> cases a2 <;> cases p1 <;> cases p2 <;>
    simp +decide [sdf_segment, dist, vec, dot, F.add, F.sub, F.mul, F.div, F.sqrt,
      F.abs, F.neg, F.min, F.signum, F.le, F.lt, F.mul_nan, F.nan_mul, F.add_nan, F.nan_add,
      F.sub_nan, F.nan_sub, F.div_nan, F.nan_div, F.le_nan, F.nan_le, F.lt_nan, F.nan_lt,
      Q.sub_self_zero, Q.zero_mul_zero, Q.mul_zero_zero, Q.zero_add_zero, Q.zero_sub_zero,
      ratSqrt_zero, Q.ble, Q.blt]

theorem cellRangeStep_eq (r : (ℤ × ℤ) × (ℤ × ℤ)) (e : Cell × Tile) :
    cellRangeStep r e =
      ((Min.min r.1.1 e.1.1, Min.min r.1.2 e.1.2), (Max.max r.2.1 e.1.1, Max.max r.2.2 e.1.2)) := by
  obtain ⟨⟨a, b⟩, ⟨c, d⟩⟩ := r
  obtain ⟨⟨x, y⟩, t⟩ := e
  unfold cellRangeStep
  dsimp only
  split_ifs <;> dsimp only at * <;> simp only [Prod.mk.injEq] <;> omega

theorem cellRange_foldl (entries : List (Cell × Tile)) :
    ∀ r : (ℤ × ℤ) × (ℤ × ℤ),
      entries.foldl cellRangeStep r =
        (((entries.map (fun p => p.1.1)).foldl Min.min r.1.1,
          (entries.map (fun p => p.1.2)).foldl Min.min r.1.2),
         ((entries.map (fun p => p.1.1)).foldl Max.max r.2.1,
          (entries.map (fun p => p.1.2)).foldl Max.max r.2.2)) := by
  induction entries with
  | nil => intro r; rfl
  | cons e rest ih =>
    intro r
    rw [List.foldl_cons, ih, cellRangeStep_eq]
    simp [List.foldl_cons]

/-! ## Termination of the wall-following walk (claim C9) -/

theorem Side.turn_right_turn_left (d : Side) : d.turn_left.turn_right = d := by
  cases d <;> rfl

theorem Side.turn_left_turn_right (d : Side) : d.turn_right.turn_left = d := by
  cases d <;> rfl

theorem Side.lrr (d : Side) : d.turn_left.turn_right.turn_right = d.turn_right := by
  cases d <;> rfl

theorem Side.rrr (d : Side) : d.turn_right.turn_right.turn_right = d.turn_left := by
  cases d <;> rfl

theorem move_cell_cancel (c : Cell) (d : Side) :
    move_cell (move_cell c d) (d.turn_right.turn_right) = c := by
  cases d <;> simp [move_cell, Side.dir, Side.turn_right, Prod.ext_iff]

theorem move_three (c : Cell) (d : Side) :
    move_cell (move_cell (move_cell c d) d.turn_right) (d.turn_right.turn_right) =
      move_cell c d.turn_right := by
  cases d <;> simp [move_cell, Side.dir, Side.turn_right, Prod.ext_iff]

theorem move_cell_inj {c₁ c₂ : Cell} {d : Side} (h : move_cell c₁ d = move_cell c₂ d) :
    c₁ = c₂ := by
  cases d <;>
    · rw [Prod.ext_iff] at h ⊢
      simp [move_cell, Side.dir] at h
      omega

theorem move_cell_dir_inj {c : Cell} {d₁ d₂ : Side} (h : move_cell c d₁ = move_cell c d₂) :
    d₁ = d₂ := by
  cases d₁ <;> cases d₂ <;> simp_all [move_cell, Side.dir, Prod.ext_iff]

theorem edgeOf_inj {s₁ s₂ : Cell × Side} (h : edgeOf s₁.1 s₁.2 = edgeOf s₂.1 s₂.2) :
    s₁ = s₂ := by
  rcases s₁ with ⟨c₁, d₁⟩
  rcases s₂ with ⟨c₂, d₂⟩
  unfold edgeOf at h
  have hc : c₁ = c₂ := congrArg Prod.fst h
  subst hc
  have hm : move_cell c₁ d₁.turn_right = move_cell c₁ d₂.turn_right := congrArg Prod.snd h
  have hd : d₁.turn_right = d₂.turn_right := move_cell_dir_inj hm
  have : d₁ = d₂ := by
    cases d₁ <;> cases d₂ <;> first | rfl | exact Side.noConfusion hd
  rw [this]

theorem fStep_keeps_tile (m : GameMap) (tile : Tile) (s : Cell × Side)
    (h : m.get_tile s.1 = tile) : m.get_tile (fStep m tile s).1 = tile := by
  rcases s with ⟨c, d⟩
  unfold fStep walkStep
  dsimp only
  split_ifs with hA hB
  · exact hA
  · exact hB
  · exact h

theorem gStep_wallhug (m : GameMap) (tile : Tile) (s : Cell × Side)
    (hs : WallHug m tile s) : WallHug m tile (gStep m tile s) := by
  obtain ⟨h1, h2⟩ := hs
  rcases s with ⟨c, d⟩
  have hg1 : ¬ m.get_tile (move_cell c d.turn_right) = tile := h2
  by_cases hg2 : m.get_tile (move_cell c d) = tile
  · have hf : fStep m tile (c, d) = (move_cell c d, d) := by
      unfold fStep walkStep
      dsimp only
      rw [if_neg hg1, if_pos hg2]
    by_cases hw : m.get_tile (move_cell (move_cell c d) d.turn_right) = tile
    · have hf2 : fStep m tile (move_cell c d, d) =
          (move_cell (move_cell c d) d.turn_right, d.turn_right) := by
        unfold fStep walkStep
        dsimp only
        rw [if_pos hw]
      have hg : gStep m tile (c, d) =
          (move_cell (move_cell c d) d.turn_right, d.turn_right) := by
        unfold gStep
        rw [hf]
        dsimp only
        rw [if_neg (not_not_intro hw), hf2]
      rw [hg]
      refine ⟨hw, ?_⟩
      rw [move_three]
      exact h2
    · have hg : gStep m tile (c, d) = (move_cell c d, d) := by
        unfold gStep
        rw [hf]
        dsimp only
        rw [if_pos hw]
      rw [hg]
      exact ⟨hg2, hw⟩
  · have hf : fStep m tile (c, d) = (c, d.turn_left) := by
      unfold fStep walkStep
      dsimp only
      rw [if_neg hg1, if_neg hg2]
    have hcond : ¬ m.get_tile (move_cell c d.turn_left.turn_right) = tile := by
      rw [Side.turn_right_turn_left]
      exact hg2
    have hg : gStep m tile (c, d) = (c, d.turn_left) := by
      unfold gStep
      rw [hf]
      dsimp only
      rw [if_pos hcond]
    rw [hg]
    exact ⟨h1, hcond⟩

theorem backStep_gStep (m : GameMap) (tile : Tile) (s : Cell × Side)
    (hs : WallHug m tile s) : backStep m tile (gStep m tile s) = s := by
  obtain ⟨h1, h2⟩ := hs
  rcases s with ⟨c, d⟩
  have hg1 : ¬ m.get_tile (move_cell c d.turn_right) = tile := h2
  by_cases hg2 : m.get_tile (move_cell c d) = tile
  · have hf : fStep m tile (c, d) = (move_cell c d, d) := by
      unfold fStep walkStep
      dsimp only
      rw [if_neg hg1, if_pos hg2]
    by_cases hw : m.get_tile (move_cell (move_cell c d) d.turn_right) = tile
    · -- two raw steps: target (move (move c d) (right d), right d)
      have hf2 : fStep m tile (move_cell c d, d) =
          (move_cell (move_cell c d) d.turn_right, d.turn_right) := by
        unfold fStep walkStep
        dsimp only
        rw [if_pos hw]
      have hg : gStep m tile (c, d) =
          (move_cell (move_cell c d) d.turn_right, d.turn_right) := by
        unfold gStep
        rw [hf]
        dsimp only
        rw [if_neg (not_not_intro hw), hf2]
      rw [hg]
      unfold backStep
      dsimp only
      rw [move_cell_cancel (move_cell c d) d.turn_right]
      rw [if_neg (not_not_intro hg2)]
      rw [move_cell_cancel c d]
      rw [if_neg (not_not_intro h1)]
      rw [Side.turn_left_turn_right]
    · -- one raw step forward: target (move c d, d)
      have hg : gStep m tile (c, d) = (move_cell c d, d) := by
        unfold gStep
        rw [hf]
        dsimp only
        rw [if_pos hw]
      rw [hg]
      unfold backStep
      dsimp only
      rw [move_cell_cancel c d]
      rw [if_neg (not_not_intro h1), if_pos hg1]
  · -- turn left in place: target (c, left d)
    have hf : fStep m tile (c, d) = (c, d.turn_left) := by
      unfold fStep walkStep
      dsimp only
      rw [if_neg hg1, if_neg hg2]
    have hcond : ¬ m.get_tile (move_cell c d.turn_left.turn_right) = tile := by
      rw [Side.turn_right_turn_left]
      exact hg2
    have hg : gStep m tile (c, d) = (c, d.turn_left) := by
      unfold gStep
      rw [hf]
      dsimp only
      rw [if_pos hcond]
    rw [hg]
    unfold backStep
    dsimp only
    rw [Side.lrr]
    rw [if_pos hg1, Side.turn_right_turn_left]

theorem lookupA_mem {l : List (Cell × Tile)} {c : Cell} {t : Tile}
    (h : lookupA l c = some t) : c ∈ l.map Prod.fst := by
  induction l with
  | nil => exact Option.noConfusion h
  | cons e rest ih =>
    rcases e with ⟨c', t'⟩
    by_cases hc : c' = c
    · subst hc
      exact List.mem_cons_self _ _
    · rw [show lookupA ((c', t') :: rest) c = lookupA rest c from by
        rw [lookupA, if_neg hc]] at h
      exact List.mem_cons_of_mem _ (ih h)

theorem getTile_mem {m : GameMap} {c : Cell} (h : m.get_tile c ≠ m.default_tile) :
    c ∈ m.terrain.map Prod.fst := by
  unfold GameMap.get_tile at h
  cases hl : lookupA m.terrain c with
  | none => rw [hl] at h; exact absurd rfl h
  | some t => exact lookupA_mem hl

theorem wallhug_finite (m : GameMap) (tile : Tile) :
    Set.Finite {s : Cell × Side | WallHug m tile s} := by
  by_cases ht : tile = m.default_tile
  · -- the wall cell on the right is stored, and it determines the state
    apply Set.Finite.of_finite_image
      (f := fun s : Cell × Side => (move_cell s.1 s.2.turn_right, s.2))
    · apply Set.Finite.subset
        (Set.Finite.prod (List.finite_toSet (m.terrain.map Prod.fst)) Set.finite_univ)
      rintro ⟨x, d⟩ ⟨⟨cc, dd⟩, hw, heq⟩
      obtain ⟨hw1, hw2⟩ := hw
      have hne : m.get_tile (move_cell cc dd.turn_right) ≠ m.default_tile := by
        rw [← ht]
        exact hw2
      have hx : move_cell cc dd.turn_right = x := congrArg Prod.fst heq
      exact ⟨by rw [← hx]; exact getTile_mem hne, trivial⟩
    · rintro ⟨c₁, d₁⟩ h₁ ⟨c₂, d₂⟩ h₂ heq
      have hd : d₁ = d₂ := congrArg Prod.snd heq
      subst hd
      have hm : move_cell c₁ d₁.turn_right = move_cell c₂ d₁.turn_right :=
        congrArg Prod.fst heq
      rw [move_cell_inj hm]
  · -- the inside cell is stored
    apply Set.Finite.subset
      (Set.Finite.prod (List.finite_toSet (m.terrain.map Prod.fst)) Set.finite_univ)
    rintro ⟨c, d⟩ ⟨hw1, -⟩
    refine ⟨?_, trivial⟩
    have hne : m.get_tile c ≠ m.default_tile := by
      rw [hw1]
      exact ht
    exact getTile_mem hne

theorem gStep_iterate_wallhug (m : GameMap) (tile : Tile) (s₀ : Cell × Side)
    (h₀ : WallHug m tile s₀) (k : ℕ) : WallHug m tile ((gStep m tile)^[k] s₀) := by
  induction k with
  | zero => exact h₀
  | succ k ih =>
    rw [Function.iterate_succ_apply']
    exact gStep_wallhug m tile _ ih

theorem backStep_iterate (m : GameMap) (tile : Tile) :
    ∀ (k : ℕ) (x : Cell × Side), WallHug m tile x →
      (backStep m tile)^[k] ((gStep m tile)^[k] x) = x := by
  intro k
  induction k with
  | zero => intro x _; rfl
  | succ k ih =>
    intro x hx
    rw [Function.iterate_succ_apply (gStep m tile),
        Function.iterate_succ_apply' (backStep m tile),
        ih (gStep m tile x) (gStep_wallhug m tile x hx)]
    exact backStep_gStep m tile x hx

theorem gStep_orbit (m : GameMap) (tile : Tile) (s₀ : Cell × Side)
    (h₀ : WallHug m tile s₀) : ∃ n, 0 < n ∧ (gStep m tile)^[n] s₀ = s₀ := by
  have hfin : Finite {s : Cell × Side // WallHug m tile s} :=
    (wallhug_finite m tile).to_subtype
  obtain ⟨i, j, hne, heq⟩ := Finite.exists_ne_map_eq_of_infinite
    (fun k : ℕ => (⟨(gStep m tile)^[k] s₀, gStep_iterate_wallhug m tile s₀ h₀ k⟩ :
      {s : Cell × Side // WallHug m tile s}))
  have hval : (gStep m tile)^[i] s₀ = (gStep m tile)^[j] s₀ := congrArg Subtype.val heq
  have key : ∀ a b : ℕ, a < b → (gStep m tile)^[a] s₀ = (gStep m tile)^[b] s₀ →
      ∃ n, 0 < n ∧ (gStep m tile)^[n] s₀ = s₀ := by
    intro a b hab hEq
    refine ⟨b - a, by omega, ?_⟩
    have hsplit : (gStep m tile)^[b] s₀ = (gStep m tile)^[a] ((gStep m tile)^[b - a] s₀) := by
      rw [← Function.iterate_add_apply]
      congr 1
      omega
    rw [hsplit] at hEq
    have h1 := backStep_iterate m tile a s₀ h₀
    have h2 := backStep_iterate m tile a ((gStep m tile)^[b - a] s₀)
      (gStep_iterate_wallhug m tile s₀ h₀ (b - a))
    have happ := congrArg ((backStep m tile)^[a]) hEq
    rw [h1, h2] at happ
    exact happ.symm
  rcases Nat.lt_or_ge i j with hij | hij
  · exact key i j hij hval
  · have hij' : j < i := by
      rcases Nat.lt_or_ge j i with h | h
      · exact h
      · exact absurd (Nat.le_antisymm h hij) hne
    exact key j i hij' hval.symm

theorem gStep_eq (m : GameMap) (tile : Tile) (s : Cell × Side) :
    gStep m tile s =
      if m.get_tile (move_cell (fStep m tile s).1 (fStep m tile s).2.turn_right) ≠ tile
      then fStep m tile s
      else fStep m tile (fStep m tile s) := rfl

theorem fStep_reaches (m : GameMap) (tile : Tile) (s₀ : Cell × Side) :
    ∀ k, ∃ M, k ≤ M ∧ (fStep m tile)^[M] s₀ = (gStep m tile)^[k] s₀ := by
  intro k
  induction k with
  | zero => exact ⟨0, Nat.le_refl 0, rfl⟩
  | succ k ih =>
    obtain ⟨M, hM, hfM⟩ := ih
    by_cases hc : m.get_tile (move_cell (fStep m tile ((gStep m tile)^[k] s₀)).1
        (fStep m tile ((gStep m tile)^[k] s₀)).2.turn_right) ≠ tile
    · refine ⟨M + 1, by omega, ?_⟩
      rw [Function.iterate_succ_apply' (fStep m tile), hfM,
          Function.iterate_succ_apply' (gStep m tile), gStep_eq, if_pos hc]
    · refine ⟨M + 2, by omega, ?_⟩
      have hsplit : (fStep m tile)^[M + 2] s₀ =
          fStep m tile (fStep m tile ((fStep m tile)^[M] s₀)) := by
        rw [Function.iterate_succ_apply', Function.iterate_succ_apply']
      rw [hsplit, hfM, Function.iterate_succ_apply' (gStep m tile), gStep_eq, if_neg hc]


/-! ## The walk consumes the working set and succeeds with enough fuel (claim C9) -/

theorem eraseA_subset : ∀ (l : List Edge) (e x : Edge), x ∈ eraseA l e → x ∈ l := by
  intro l e
  induction l with
  | nil => intro x h; exact absurd h (List.not_mem_nil x)
  | cons a rest ih =>
    intro x h
    rw [eraseA] at h
    split_ifs at h with ha
    · exact List.mem_cons_of_mem a h
    · rcases List.mem_cons.mp h with h | h
      · exact List.mem_cons.mpr (Or.inl h)
      · exact List.mem_cons_of_mem a (ih x h)

theorem eraseA_len_le : ∀ (l : List Edge) (e : Edge), (eraseA l e).length ≤ l.length := by
  intro l e
  induction l with
  | nil => exact Nat.le_refl 0
  | cons a rest ih =>
    rw [eraseA]
    split_ifs
    · exact Nat.le_succ rest.length
    · simp only [List.length_cons]
      exact Nat.succ_le_succ ih

theorem eraseA_len_lt : ∀ (l : List Edge) (e : Edge), e ∈ l → (eraseA l e).length < l.length := by
  intro l e
  induction l with
  | nil => intro h; exact absurd h (List.not_mem_nil e)
  | cons a rest ih =>
    intro h
    rw [eraseA]
    split_ifs with ha
    · simp only [List.length_cons]
      exact Nat.lt_succ_self rest.length
    · rcases List.mem_cons.mp h with h | h
      · exact absurd h.symm ha
      · simp only [List.length_cons]
        exact Nat.succ_lt_succ (ih h)

theorem walkLoopAux_succ (m : GameMap) (tile : Tile) (first : Edge) (fuel : ℕ)
    (st : Cell × Side) (ws border : List Edge) :
    walkLoopAux m tile first (fuel + 1) st ws border =
      if edgeOf (fStep m tile st).1 (fStep m tile st).2 = first
      then some ((if m.get_tile (edgeOf (fStep m tile st).1 (fStep m tile st).2).2 ≠ tile
                  then border ++ [edgeOf (fStep m tile st).1 (fStep m tile st).2]
                  else border),
                 eraseA ws (edgeOf st.1 st.2))
      else walkLoopAux m tile first fuel (fStep m tile st) (eraseA ws (edgeOf st.1 st.2))
        (if m.get_tile (edgeOf (fStep m tile st).1 (fStep m tile st).2).2 ≠ tile
         then border ++ [edgeOf (fStep m tile st).1 (fStep m tile st).2]
         else border) := rfl

theorem walkLoop_success (m : GameMap) (tile : Tile) (first : Edge) :
    ∀ (fuel k : ℕ) (st : Cell × Side) (ws border : List Edge),
      1 ≤ k → k ≤ fuel →
      edgeOf ((fStep m tile)^[k] st).1 ((fStep m tile)^[k] st).2 = first →
      (walkLoopAux m tile first fuel st ws border).isSome = true := by
  intro fuel
  induction fuel with
  | zero =>
    intro k st ws border h1 h2 _
    exfalso
    omega
  | succ fuel ih =>
    intro k st ws border h1 h2 hk
    rw [walkLoopAux_succ]
    by_cases he : edgeOf (fStep m tile st).1 (fStep m tile st).2 = first
    · rw [if_pos he]
      rfl
    · rw [if_neg he]
      have hk1 : k ≠ 1 := by
        intro h
        subst h
        rw [Function.iterate_one] at hk
        exact he hk
      apply ih (k - 1) (fStep m tile st) _ _ (by omega) (by omega)
      have harr : (fStep m tile)^[k - 1] (fStep m tile st) = (fStep m tile)^[k] st := by
        rw [← Function.iterate_succ_apply]
        have hkk : (k - 1).succ = k := by omega
        rw [hkk]
      rw [harr]
      exact hk

theorem walkLoop_ws_sub (m : GameMap) (tile : Tile) (first : Edge) :
    ∀ (fuel : ℕ) (st : Cell × Side) (ws border : List Edge) (r : List Edge × List Edge),
      walkLoopAux m tile first fuel st ws border = some r →
      ∀ x, x ∈ r.2 → x ∈ ws := by
  intro fuel
  induction fuel with
  | zero => intro st ws border r h; exact Option.noConfusion h
  | succ fuel ih =>
    intro st ws border r h
    rw [walkLoopAux_succ] at h
    by_cases he : edgeOf (fStep m tile st).1 (fStep m tile st).2 = first
    · rw [if_pos he] at h
      cases Option.some.inj h
      intro x hx
      exact eraseA_subset ws (edgeOf st.1 st.2) x hx
    · rw [if_neg he] at h
      intro x hx
      exact eraseA_subset ws (edgeOf st.1 st.2) x (ih _ _ _ r h x hx)

theorem walkLoop_ws_len (m : GameMap) (tile : Tile) (first : Edge) :
    ∀ (fuel : ℕ) (st : Cell × Side) (ws border : List Edge) (r : List Edge × List Edge),
      walkLoopAux m tile first fuel st ws border = some r →
      r.2.length ≤ ws.length := by
  intro fuel
  induction fuel with
  | zero => intro st ws border r h; exact Option.noConfusion h
  | succ fuel ih =>
    intro st ws border r h
    rw [walkLoopAux_succ] at h
    by_cases he : edgeOf (fStep m tile st).1 (fStep m tile st).2 = first
    · rw [if_pos he] at h
      cases Option.some.inj h
      exact eraseA_len_le ws (edgeOf st.1 st.2)
    · rw [if_neg he] at h
      exact Nat.le_trans (ih _ _ _ r h) (eraseA_len_le ws (edgeOf st.1 st.2))

theorem walkLoop_ws_lt (m : GameMap) (tile : Tile) (first : Edge) (fuel : ℕ)
    (st : Cell × Side) (ws border : List Edge) (r : List Edge × List Edge)
    (hmem : edgeOf st.1 st.2 ∈ ws)
    (h : walkLoopAux m tile first fuel st ws border = some r) :
    r.2.length < ws.length := by
  cases fuel with
  | zero => exact Option.noConfusion h
  | succ fuel =>
    rw [walkLoopAux_succ] at h
    by_cases he : edgeOf (fStep m tile st).1 (fStep m tile st).2 = first
    · rw [if_pos he] at h
      cases Option.some.inj h
      exact eraseA_len_lt ws (edgeOf st.1 st.2) hmem
    · rw [if_neg he] at h
      exact Nat.lt_of_le_of_lt (walkLoop_ws_len m tile first fuel _ _ _ r h)
        (eraseA_len_lt ws (edgeOf st.1 st.2) hmem)

theorem walkLoop_mono (m : GameMap) (tile : Tile) (first : Edge) :
    ∀ (fuel fuel' : ℕ) (st : Cell × Side) (ws border : List Edge)
      (r : List Edge × List Edge), fuel ≤ fuel' →
      walkLoopAux m tile first fuel st ws border = some r →
      walkLoopAux m tile first fuel' st ws border = some r := by
  intro fuel
  induction fuel with
  | zero => intro fuel' st ws border r _ h; exact Option.noConfusion h
  | succ fuel ih =>
    intro fuel' st ws border r hle h
    cases fuel' with
    | zero => exfalso; omega
    | succ fuel2 =>
      rw [walkLoopAux_succ] at h ⊢
      by_cases he : edgeOf (fStep m tile st).1 (fStep m tile st).2 = first
      · rw [if_pos he] at h ⊢
        exact h
      · rw [if_neg he] at h ⊢
        exact ih fuel2 _ _ _ r (by omega) h

theorem traceAuxOnce_mono (m : GameMap) (first : Edge) (fuel fuel' : ℕ)
    (ws : List Edge) (bl : BordersList) (out : List Edge × BordersList)
    (hle : fuel ≤ fuel')
    (h : traceAuxOnce m first fuel ws bl = some out) :
    traceAuxOnce m first fuel' ws bl = some out := by
  unfold traceAuxOnce at h ⊢
  cases hd : Side.from_dir (first.2.1 - first.1.1, first.2.2 - first.1.2) with
  | none =>
    rw [hd] at h
    exact Option.noConfusion h
  | some s =>
    simp only [hd] at h ⊢
    cases hw : walkLoopAux m (m.get_tile first.1) first fuel (first.1, s.turn_left) ws
        [first] with
    | none =>
      rw [hw] at h
      exact Option.noConfusion h
    | some r =>
      rw [hw] at h
      rw [walkLoop_mono m (m.get_tile first.1) first fuel fuel' (first.1, s.turn_left) ws
        [first] r hle hw]
      exact h

theorem traceAux_mono (m : GameMap) (pick : List Edge → Edge) :
    ∀ (n n' : ℕ) (ws : List Edge) (bl out : BordersList),
      n ≤ n' → traceAux m pick n ws bl = some out → traceAux m pick n' ws bl = some out := by
  intro n
  induction n with
  | zero =>
    intro n' ws bl out _ h
    rw [traceAux] at h
    split_ifs at h with hw
    · subst hw
      rw [traceAux_nil]
      exact h
  | succ n ih =>
    intro n' ws bl out hle h
    cases n' with
    | zero => exfalso; omega
    | succ n2 =>
      rw [traceAux] at h ⊢
      split_ifs at h ⊢ with hw
      · exact h
      · cases ho : traceAuxOnce m (pick ws) n ws bl with
        | none =>
          rw [ho] at h
          exact Option.noConfusion h
        | some wb =>
          rw [ho] at h
          rw [traceAuxOnce_mono m (pick ws) n n2 ws bl wb (by omega) ho]
          exact ih n2 wb.1 wb.2 out (by omega) h

theorem insertEdge_mem {acc : List Edge} {e x : Edge} (h : x ∈ insertEdge acc e) :
    x ∈ acc ∨ x = e := by
  unfold insertEdge at h
  split_ifs at h with he
  · exact Or.inl h
  · rcases List.mem_append.mp h with h | h
    · exact Or.inl h
    · exact Or.inr (List.mem_singleton.mp h)

theorem foldl_insertEdge_mem :
    ∀ (l acc : List Edge) (x : Edge), x ∈ l.foldl insertEdge acc → x ∈ acc ∨ x ∈ l := by
  intro l
  induction l with
  | nil => intro acc x h; exact Or.inl h
  | cons a rest ih =>
    intro acc x h
    rw [List.foldl_cons] at h
    rcases ih (insertEdge acc a) x h with h | h
    · rcases insertEdge_mem h with h | h
      · exact Or.inl h
      · exact Or.inr (List.mem_cons.mpr (Or.inl h))
    · exact Or.inr (List.mem_cons_of_mem a h)

theorem borderEdgesOfCell_ok (m : GameMap) (c : Cell) (e : Edge)
    (h : e ∈ borderEdgesOfCell m c) : EdgeOk m e := by
  unfold borderEdgesOfCell at h
  rw [List.mem_filterMap] at h
  obtain ⟨tp, htp, hsome⟩ := h
  rw [List.mem_map] at htp
  obtain ⟨p, hp, rfl⟩ := htp
  split_ifs at hsome with hne
  · cases Option.some.inj hsome
    constructor
    · exact hne
    · simp only [Side.iter_dir, Side.iterList, Side.dir, List.map_cons, List.map_nil,
        List.mem_cons, List.not_mem_nil, or_false] at hp
      rcases hp with rfl | rfl | rfl | rfl
      · exact ⟨Side.Up, rfl⟩
      · exact ⟨Side.Right, rfl⟩
      · exact ⟨Side.Down, rfl⟩
      · exact ⟨Side.Left, rfl⟩

theorem borderEdges_ok (m : GameMap) : ∀ e ∈ borderEdges m, EdgeOk m e := by
  unfold borderEdges
  suffices h : ∀ (l : List (Cell × Tile)) (acc : List Edge), (∀ e ∈ acc, EdgeOk m e) →
      ∀ e ∈ l.foldl (fun acc e =>
        if m.get_tile e.1 = Tile.Empty then acc
        else (borderEdgesOfCell m e.1).foldl insertEdge acc) acc, EdgeOk m e by
    intro e he
    exact h m.terrain [] (fun x hx => absurd hx (List.not_mem_nil x)) e he
  intro l
  induction l with
  | nil => intro acc hacc e he; exact hacc e he
  | cons a rest ih =>
    intro acc hacc e he
    rw [List.foldl_cons] at he
    apply ih _ _ e he
    intro x hx
    split_ifs at hx with ht
    · exact hacc x hx
    · rcases foldl_insertEdge_mem _ _ _ hx with h | h
      · exact hacc x h
      · exact borderEdgesOfCell_ok m a.1 x h

theorem from_dir_move (c : Cell) (s : Side) :
    Side.from_dir ((move_cell c s).1 - c.1, (move_cell c s).2 - c.2) = some s := by
  have h1 : (move_cell c s).1 - c.1 = s.dir.1 := by
    simp only [move_cell]
    ring
  have h2 : (move_cell c s).2 - c.2 = s.dir.2 := by
    simp only [move_cell]
    ring
  rw [h1, h2]
  cases s <;> rfl

theorem traceAuxOnce_success (m : GameMap) (first : Edge) (ws : List Edge)
    (bl : BordersList) (hok : EdgeOk m first) (hmem : first ∈ ws) :
    ∃ (fuel : ℕ) (out : List Edge × BordersList),
      traceAuxOnce m first fuel ws bl = some out ∧ out.1.length < ws.length ∧
        ∀ x ∈ out.1, x ∈ ws := by
  obtain ⟨hne, σ, hσ⟩ := hok
  have hwh : WallHug m (m.get_tile first.1) (first.1, σ.turn_left) := by
    constructor
    · rfl
    · show m.get_tile (move_cell first.1 σ.turn_left.turn_right) ≠ m.get_tile first.1
      rw [Side.turn_right_turn_left, ← hσ]
      exact hne
  have hedge : edgeOf first.1 σ.turn_left = first := by
    unfold edgeOf
    rw [Side.turn_right_turn_left, ← hσ]
  obtain ⟨nn, hnn, horbit⟩ := gStep_orbit m (m.get_tile first.1) (first.1, σ.turn_left) hwh
  obtain ⟨M, hM, hfM⟩ := fStep_reaches m (m.get_tile first.1) (first.1, σ.turn_left) nn
  have hfs : (fStep m (m.get_tile first.1))^[M] (first.1, σ.turn_left) =
      (first.1, σ.turn_left) := by
    rw [hfM, horbit]
  have hkedge : edgeOf ((fStep m (m.get_tile first.1))^[M] (first.1, σ.turn_left)).1
      ((fStep m (m.get_tile first.1))^[M] (first.1, σ.turn_left)).2 = first := by
    rw [hfs]
    exact hedge
  have hsome := walkLoop_success m (m.get_tile first.1) first M M (first.1, σ.turn_left)
    ws [first] (by omega) (Nat.le_refl M) hkedge
  obtain ⟨r, hr⟩ := Option.isSome_iff_exists.mp hsome
  have hmem2 : edgeOf (first.1, σ.turn_left).1 (first.1, σ.turn_left).2 ∈ ws := by
    show edgeOf first.1 σ.turn_left ∈ ws
    rw [hedge]
    exact hmem
  have hfd : Side.from_dir (first.2.1 - first.1.1, first.2.2 - first.1.2) = some σ := by
    rw [hσ]
    exact from_dir_move first.1 σ
  refine ⟨M, (r.2, insertLoop bl (m.get_tile first.1) (r.1.map edgeMidpoint)), ?_, ?_, ?_⟩
  · unfold traceAuxOnce
    simp only [hfd, hr]
  · exact walkLoop_ws_lt m (m.get_tile first.1) first M (first.1, σ.turn_left) ws [first]
      r hmem2 hr
  · intro x hx
    exact walkLoop_ws_sub m (m.get_tile first.1) first M (first.1, σ.turn_left) ws [first]
      r hr x hx

theorem traceAux_term (m : GameMap) (pick : List Edge → Edge) (hp : ValidPick pick) :
    ∀ (len : ℕ) (ws : List Edge), ws.length ≤ len → (∀ e ∈ ws, EdgeOk m e) →
      ∀ bl : BordersList, ∃ n, (traceAux m pick n ws bl).isSome = true := by
  intro len
  induction len with
  | zero =>
    intro ws hlen _ bl
    cases ws with
    | nil => exact ⟨0, by rw [traceAux_nil]; rfl⟩
    | cons a l =>
      exfalso
      simp only [List.length_cons] at hlen
      omega
  | succ len ih =>
    intro ws hlen hok bl
    by_cases hws : ws = []
    · subst hws
      exact ⟨0, by rw [traceAux_nil]; rfl⟩
    · have hpick : pick ws ∈ ws := hp ws hws
      obtain ⟨fuel, out, hout, hlt, hsub⟩ :=
        traceAuxOnce_success m (pick ws) ws bl (hok (pick ws) hpick) hpick
      have hok2 : ∀ e ∈ out.1, EdgeOk m e := fun e he => hok e (hsub e he)
      have hlen2 : out.1.length ≤ len := by omega
      obtain ⟨n₁, hn₁⟩ := ih out.1 hlen2 hok2 out.2
      obtain ⟨res, hres⟩ := Option.isSome_iff_exists.mp hn₁
      refine ⟨max fuel n₁ + 1, ?_⟩
      rw [traceAux, if_neg hws]
      have ho2 : traceAuxOnce m (pick ws) (max fuel n₁) ws bl = some out :=
        traceAuxOnce_mono m (pick ws) fuel (max fuel n₁) ws bl out (Nat.le_max_left _ _) hout
      rw [ho2]
      show (traceAux m pick (max fuel n₁) out.1 out.2).isSome = true
      rw [traceAux_mono m pick n₁ (max fuel n₁) out.1 out.2 res (Nat.le_max_right _ _) hres]
      rfl

/-! ## Claims -/

/-- Claim C2, counterexample: `sdf_segment` applied to point `(2,0)` with
segment endpoints `(-1,0)` and `(1,0)` does not return a value of magnitude
`1.0` — the point lies on the carrying line, so the `f32::MAX` sentinel is
returned instead. -/
theorem claim_C2_counterexample : ¬ claimC2Statement := by
  unfold claimC2Statement
  decide

/-- Claim C2, amended: at point `(2,0)` (beyond the right endpoint and
exactly on the infinite line), `sdf_segment` returns the `f32::MAX`
sentinel: the endpoint-capping branch is entered, but the line distance is
below the `10e-6` threshold, so the sentinel fires before the
nearer-endpoint distance is computed. -/
theorem claim_C2_amended :
    sdf_segment (toWP (⟨2, 1⟩, ⟨0, 1⟩)) (toWP (⟨-1, 1⟩, ⟨0, 1⟩)) (toWP (⟨1, 1⟩, ⟨0, 1⟩)) =
      F.val f32MAX := by
  decide

/-- Claim C7, counterexample: with coincident endpoints `a = b = (0,0)` and
tested point `(3,4)`, `sdf_segment` returns NaN, not the `f32::MAX`
sentinel: the cartesian coefficients are all `0`, the line distance is
`0/0 = NaN`, the NaN comparison with the sentinel threshold is false, and
NaN propagates through `signum` into the product. -/
theorem claim_C7_counterexample :
    (¬ claimC7Statement) ∧
      sdf_segment (toWP (⟨3, 1⟩, ⟨4, 1⟩)) (toWP (⟨0, 1⟩, ⟨0, 1⟩)) (toWP (⟨0, 1⟩, ⟨0, 1⟩)) =
        F.nan := by
  constructor
  · intro h
    exact absurd (h (toWP (⟨3, 1⟩, ⟨4, 1⟩)) (toWP (⟨0, 1⟩, ⟨0, 1⟩))) (by decide)
  · decide

/-- Claim C7, amended: with coincident endpoints `sdf_segment` returns NaN
(not `f32::MAX`, and it does not panic); since every f32 comparison with
NaN is false, a NaN candidate still never wins the nearest-magnitude
comparison in `sdf_polygon`'s accumulation, so callers minimizing over many
segments ignore the degenerate segment. -/
theorem claim_C7_amended :
    (∀ p a : WP, sdf_segment p a a = F.nan) ∧
      (∀ (tp q : WP) (rest : List WP) (acc : F),
        sdf_polygonAux tp q (q :: rest) acc = sdf_polygonAux tp q rest acc) := by
  refine ⟨sdf_segment_self, ?_⟩
  intro tp q rest acc
  rw [sdf_polygonAux]
  simp [sdf_segment_self, F.neg, F.abs, F.nan_lt]

/-- Claim C10: for a cell absent from the terrain store, `set_tile` returns
`true` (signalling "changed") even when the written tile equals the default
tile, although `get_tile` observes the same value before and after — the
"changed" signal is based on key presence, not on the observable value. -/
theorem claim_C10_set_tile (m : GameMap) (c : Cell) (t : Tile)
    (h : lookupA m.terrain c = none) :
    (m.set_tile c t).1 = true ∧ (m.set_tile c t).2.get_tile c = t ∧
      (t = m.default_tile → (m.set_tile c t).2.get_tile c = m.get_tile c) := by
  refine ⟨?_, ?_, ?_⟩
  · show (match (insertA m.terrain c t).1 with
      | none => true
      | some x => decide ¬(x = t)) = true
    rw [insertA_fst, h]
  · show (match lookupA (insertA m.terrain c t).2 c with
      | some x => x
      | none => (m.set_tile c t).2.default_tile) = t
    rw [insertA_lookup_self]
  · intro ht
    show (match lookupA (insertA m.terrain c t).2 c with
      | some x => x
      | none => (m.set_tile c t).2.default_tile) =
      (match lookupA m.terrain c with
      | some x => x
      | none => m.default_tile)
    rw [insertA_lookup_self, h, ht]

/-- Claim C10, witness: the cell `(0,0)` is absent from the empty map, and
writing the default tile `Empty` there reports "changed" while `get_tile`
is unaffected. -/
theorem claim_C10_witness :
    lookupA GameMap.empty.terrain (0, 0) = none ∧
      ((GameMap.empty.set_tile (0, 0) Tile.Empty).1 = true ∧
        (GameMap.empty.set_tile (0, 0) Tile.Empty).2.get_tile (0, 0) = Tile.Empty ∧
        (Tile.Empty = GameMap.empty.default_tile →
          (GameMap.empty.set_tile (0, 0) Tile.Empty).2.get_tile (0, 0) =
            GameMap.empty.get_tile (0, 0))) :=
  ⟨rfl, claim_C10_set_tile GameMap.empty (0, 0) Tile.Empty rfl⟩

/-- Claim C5, counterexample: for the grid whose only populated cell is
`(5,5)`, the rendered buffer is `768 × 768` pixels, not the `128 × 128` of
the populated-cell bounding box — the bounding-box fold is seeded with the
origin cell `(0,0)`, which is always included. -/
theorem claim_C5_counterexample : ¬ claimC5Statement := by
  intro h
  exact absurd (h farCellGrid (by decide)) (by decide)

/-- Claim C5, amended: the buffer covers the smallest cell-aligned rectangle
containing all stored cells together with the origin cell `(0,0)` (the
fold's seed), at 128 pixels per cell: the code's one-pass range fold equals
the separate min/max folds seeded with `0`. -/
theorem claim_C5_amended :
    ∀ m : GameMap,
      cellRange m.terrain =
        (((m.terrain.map (fun p => p.1.1)).foldl Min.min 0,
          (m.terrain.map (fun p => p.1.2)).foldl Min.min 0),
         ((m.terrain.map (fun p => p.1.1)).foldl Max.max 0,
          (m.terrain.map (fun p => p.1.2)).foldl Max.max 0)) ∧
      textureSize m =
        (((m.terrain.map (fun p => p.1.1)).foldl Max.max 0 -
            (m.terrain.map (fun p => p.1.1)).foldl Min.min 0 + 1) * 128,
         ((m.terrain.map (fun p => p.1.2)).foldl Max.max 0 -
            (m.terrain.map (fun p => p.1.2)).foldl Min.min 0 + 1) * 128) := by
  intro m
  have h2 : cellRange m.terrain =
      (((m.terrain.map (fun p => p.1.1)).foldl Min.min 0,
        (m.terrain.map (fun p => p.1.2)).foldl Min.min 0),
       ((m.terrain.map (fun p => p.1.1)).foldl Max.max 0,
        (m.terrain.map (fun p => p.1.2)).foldl Max.max 0)) :=
    cellRange_foldl m.terrain ((0, 0), (0, 0))
  refine ⟨h2, ?_⟩
  simp only [textureSize, PRE_RENDERING_CELL_SIZE, h2]

/-- Claim C8: rendering the empty grid is not an error — the trace yields an
empty loop set for every selection order and any fuel, the buffer is
`128 × 128`, and every pixel of it gets the background colour
`(255,255,255,255)` for every banding function. -/
theorem claim_C8_empty_grid :
    (∀ (pick : List Edge → Edge) (n : ℕ), trace GameMap.empty pick n = some []) ∧
      textureSize GameMap.empty = (128, 128) ∧
      (∀ (fsin : Q → Q) (x y : ℕ), x < 128 → y < 128 →
        pixelBytes fsin [] (pixelWorldPos GameMap.empty x y) = (255, 255, 255, 255)) := by
  refine ⟨?_, by decide, ?_⟩
  · intro pick n
    show traceAux GameMap.empty pick n (borderEdges GameMap.empty) [] = some []
    rw [show borderEdges GameMap.empty = [] from rfl, traceAux_nil]
  · intro fsin x y _ _
    rfl

/-- Claim C8, witness: the empty-grid render evaluated at fuel `0` and at
the concrete in-range pixel `(5,7)`. -/
theorem claim_C8_witness :
    trace GameMap.empty headPick 0 = some [] ∧ (5 < 128 ∧ 7 < 128) ∧
      pixelBytes (fun q => q) [] (pixelWorldPos GameMap.empty 5 7) = (255, 255, 255, 255) :=
  ⟨claim_C8_empty_grid.1 headPick 0, ⟨by decide, by decide⟩,
   claim_C8_empty_grid.2.2 (fun q => q) 5 7 (by decide) (by decide)⟩

/-- Claim C4, counterexample: tracing the single-cell grid with two
different (both valid) selection orders yields different loop point
sequences — the loop starts at the picked edge's midpoint, so the HashSet
iteration order is observable in the output. -/
theorem claim_C4_counterexample : ¬ claimC4Statement := by
  intro h
  exact absurd (h singleCellGrid headPick leftPick 30 headPick_valid leftPick_valid)
    (by decide)

/-- Claim C4, amended: tracing is deterministic relative to the
edge-selection order — two runs on the same unchanged grid whose selection
functions agree on every nonempty working set produce identical loop point
sequences; the code's randomly-seeded HashSet iteration supplies no fixed
order, so only this relative determinism holds. -/
theorem claim_C4_amended (m : GameMap) (p₁ p₂ : List Edge → Edge) (fuel : ℕ)
    (h : ∀ ws, ws ≠ [] → p₁ ws = p₂ ws) :
    trace m p₁ fuel = trace m p₂ fuel :=
  traceAux_pick_congr m p₁ p₂ h fuel (borderEdges m) []

/-- Claim C4, witness: `headPick` and `altHeadPick` agree on every nonempty
working set, so the amended determinism applies to them on the single-cell
grid. -/
theorem claim_C4_amended_witness :
    (∀ ws : List Edge, ws ≠ [] → headPick ws = altHeadPick ws) ∧
      trace singleCellGrid headPick 30 = trace singleCellGrid altHeadPick 30 :=
  ⟨altHeadPick_agrees, claim_C4_amended singleCellGrid headPick altHeadPick 30 altHeadPick_agrees⟩

/-- Claim C3, counterexample: tracing the single-cell grid with the head
selection yields one Dirt loop of five points (the four edge midpoints plus
the starting midpoint repeated to close the loop), so the claimed
"exactly 4 points" fails. -/
theorem claim_C3_counterexample : ¬ claimC3Statement := by
  intro h
  exact absurd
    (h headPick headPick_valid [(Tile.Dirt, [closeLoop (rotateL c3cycle 0)])] (by decide))
    (by decide)

/-- Claim C3, amended: tracing the single-cell grid (with any valid
selection order) produces exactly one Dirt loop of five points: the four
edge midpoints `(1/2,0), (0,1/2), (1/2,1), (1,1/2)` traversed once in this
cyclic order starting from the picked edge's midpoint, with the starting
midpoint repeated at the end to close the loop. -/
theorem claim_C3_amended :
    ∀ pick, ValidPick pick →
      ∃ bl, trace singleCellGrid pick 30 = some bl ∧ c3AmendedCheck bl = true := by
  intro pick hpick
  exact traceOne_sound singleCellGrid pick hpick 29 c3AmendedCheck (by decide) (by decide)

/-- Claim C3, witness: the amended statement applied to the head
selection. -/
theorem claim_C3_amended_witness :
    ValidPick headPick ∧
      ∃ bl, trace singleCellGrid headPick 30 = some bl ∧ c3AmendedCheck bl = true :=
  ⟨headPick_valid, claim_C3_amended headPick headPick_valid⟩

/-- Claim C1, counterexample: `twoTypeBL` is the loop set traced from
`twoTypeGrid`, and at the pixel world position `(2, 1/2)` the scan colours
the pixel with Ice (distance `-1`, the first entry with distance `≤ 0`)
although Dirt's distance there has strictly smaller magnitude (about
`0.707`) — the rasterizer does not select the minimal-magnitude tile. -/
theorem claim_C1_counterexample :
    trace twoTypeGrid headPick 62 = some twoTypeBL ∧ ¬ claimC1Statement := by
  constructor
  · decide
  · intro h
    have h1 := (h twoTypeBL twoTypePixel).1 Tile.Ice (F.val ⟨-1, 1⟩) (by decide)
    have h2 := h1.2 (Tile.Dirt, [[(⟨1, 2⟩, ⟨0, 1⟩), (⟨0, 1⟩, ⟨1, 2⟩), (⟨1, 2⟩, ⟨1, 1⟩),
      (⟨3, 2⟩, ⟨1, 1⟩), (⟨2, 1⟩, ⟨1, 2⟩), (⟨3, 2⟩, ⟨0, 1⟩), (⟨1, 2⟩, ⟨0, 1⟩)]]) (by decide)
    exact absurd h2 (by decide)

/-- Claim C1, amended: for every pixel the per-pixel scan colours with the
first tile type in the loop collection's iteration order whose
multi-polygon distance at the pixel is `≤ 0` (every earlier entry has
distance `> 0` or NaN), and writes the background exactly when no present
tile type has distance `≤ 0`; the selected tile need not have the
smallest-magnitude distance. -/
theorem claim_C1_amended :
    ∀ (bl : BordersList) (p : WP),
      (chosenEntry bl p = none ↔ ∀ e ∈ bl, (entryDist p e).le (F.val ⟨0, 1⟩) = false) ∧
      (∀ t d, chosenEntry bl p = some (t, d) →
        ∃ pre e post, bl = pre ++ e :: post ∧ e.1 = t ∧ d = entryDist p e ∧
          d.le (F.val ⟨0, 1⟩) = true ∧
          ∀ e' ∈ pre, (entryDist p e').le (F.val ⟨0, 1⟩) = false) := by
  intro bl p
  induction bl with
  | nil =>
    constructor
    · constructor
      · intro _ e he
        exact absurd he (List.not_mem_nil e)
      · intro _
        rfl
    · intro t d h
      exact Option.noConfusion h
  | cons hd tl ih =>
    rcases hd with ⟨t0, bs0⟩
    have hunfold : chosenEntry ((t0, bs0) :: tl) p =
        if (sdf_multiple_polygons p (bs0.map (List.map toWP))).le (F.val ⟨0, 1⟩) = true
        then some (t0, sdf_multiple_polygons p (bs0.map (List.map toWP)))
        else chosenEntry tl p := rfl
    cases h0 : (sdf_multiple_polygons p (bs0.map (List.map toWP))).le (F.val ⟨0, 1⟩) with
    | true =>
      constructor
      · constructor
        · intro hnone
          rw [hunfold, if_pos h0] at hnone
          exact Option.noConfusion hnone
        · intro hall
          have hfalse := hall (t0, bs0) (List.mem_cons_self _ _)
          rw [show entryDist p (t0, bs0) =
            sdf_multiple_polygons p (bs0.map (List.map toWP)) from rfl, h0] at hfalse
          exact Bool.noConfusion hfalse
      · intro t d hsome
        rw [hunfold, if_pos h0] at hsome
        injection hsome with h3
        have ht : t0 = t := congrArg Prod.fst h3
        have hd : sdf_multiple_polygons p (bs0.map (List.map toWP)) = d := congrArg Prod.snd h3
        refine ⟨[], (t0, bs0), tl, rfl, ht, hd.symm, ?_, ?_⟩
        · rw [← hd]
          exact h0
        · intro e' he'
          exact absurd he' (List.not_mem_nil e')
    | false =>
      have hch : chosenEntry ((t0, bs0) :: tl) p = chosenEntry tl p := by
        rw [hunfold, if_neg ?_]
        rw [h0]
        exact Bool.false_ne_true
      constructor
      · constructor
        · intro hnone e he
          rcases List.mem_cons.mp he with he0 | he1
          · subst he0
            exact h0
          · exact (ih.1).mp (hch ▸ hnone) e he1
        · intro hall
          rw [hch]
          exact (ih.1).mpr (fun e he => hall e (List.mem_cons_of_mem _ he))
      · intro t d hsome
        rw [hch] at hsome
        obtain ⟨pre, e, post, hbl, ht, hd, hle, hpre⟩ := ih.2 t d hsome
        refine ⟨(t0, bs0) :: pre, e, post, by rw [hbl]; rfl, ht, hd, hle, ?_⟩
        intro e' he'
        rcases List.mem_cons.mp he' with he0 | he1
        · subst he0
          exact h0
        · exact hpre e' he1

/-- Claim C1, witness: the amended characterization applied at the
counterexample pixel: Ice is the first entry of `twoTypeBL` with distance
`≤ 0` there. -/
theorem claim_C1_amended_witness :
    ∃ pre e post, twoTypeBL = pre ++ e :: post ∧ e.1 = Tile.Ice ∧
      F.val ⟨-1, 1⟩ = entryDist twoTypePixel e ∧
      (F.val ⟨-1, 1⟩).le (F.val ⟨0, 1⟩) = true ∧
      ∀ e' ∈ pre, (entryDist twoTypePixel e').le (F.val ⟨0, 1⟩) = false :=
  (claim_C1_amended twoTypeBL twoTypePixel).2 Tile.Ice (F.val ⟨-1, 1⟩) (by decide)

/-- Claim C6: tracing the 3×3 Dirt block with Empty centre (with any valid
selection order) yields a loop set with exactly two closed Dirt loops — the
12-edge outer perimeter and the 4-edge inner hole, wound oppositely — and
the multi-polygon Dirt distance at the centre cell's world position
`(3/2, 3/2)` is strictly positive (outside). -/
theorem claim_C6_hole :
    ∀ pick, ValidPick pick →
      ∃ bl, trace holeGrid pick 62 = some bl ∧ c6check bl = true := by
  intro pick hpick
  exact traceTwo_sound holeGrid pick hpick 60 c6check (by decide) (by decide)

/-- Claim C6, witness: the statement applied to the head selection. -/
theorem claim_C6_witness :
    ValidPick headPick ∧
      ∃ bl, trace holeGrid headPick 62 = some bl ∧ c6check bl = true :=
  ⟨headPick_valid, claim_C6_hole headPick headPick_valid⟩


/-- Claim C9: for every grid and every valid edge-selection function, the
contour tracing terminates — some finite fuel makes `trace` return `some`.
Each inner wall-following walk returns to its starting
`(insideCell, outsideCell)` pair after finitely many steps (the compressed
step is a bijection on the finite set of wall-hugging states, so the orbit
of the start state is periodic), and the outer loop finishes because each
walk strictly shrinks the working set. -/
theorem claim_C9_termination (m : GameMap) (pick : List Edge → Edge)
    (hp : ValidPick pick) : ∃ n, (trace m pick n).isSome = true := by
  obtain ⟨n, hn⟩ := traceAux_term m pick hp (borderEdges m).length (borderEdges m)
    (Nat.le_refl _) (borderEdges_ok m) []
  exact ⟨n, by unfold trace; exact hn⟩

/-- Claim C9, witness: the termination theorem applied to the single-cell
grid with the head selection function. -/
theorem claim_C9_witness :
    ValidPick headPick ∧ ∃ n, (trace singleCellGrid headPick n).isSome = true :=
  ⟨headPick_valid, claim_C9_termination singleCellGrid headPick headPick_valid⟩

end VectorRace
